import Mathlib

/-!
Shallow embedding of the Case Closed heuristic decision engine
(`board.py`, `heuristic.py`, `search.py`, `agent.py`) together with proofs
of the specification claims about it.

Conventions of the embedding:
* Python `List[List[str]]` boards become `List (List Char)`; cells are the
  literal characters used by the code (`' '` for OPEN, `'X'` for WALL).
* Positions are pairs of mathematical integers (Python ints).
* Python floats are modelled as exact rationals.
* The bounded loops of the source (DFS stack loops, BFS queue loop) are
  embedded as step functions iterated by a generic fuel-indexed runner
  `loopRun`; the fuel constants are proved sufficient, so the embedded
  functions agree with the unbounded Python loops.
* `dict` lookups that can raise `KeyError` (the `state["opponent"]` access
  in `heuristic_score`) are modelled with `Except PyErr`.
-/

namespace CaseClosed

/-- Arena height, `H = 18` in `board.py`. -/
def H : Int := 18

/-- Arena width, `W = 20` in `board.py`. -/
def W : Int := 20

/-- Bounds check `inb` from `board.py`: `0 <= r < H and 0 <= c < W`. -/
def inb (r c : Int) : Bool :=
  decide (0 ≤ r ∧ r < H ∧ 0 ≤ c ∧ c < W)

/-- The direction names, in the order of `DIRS` in `board.py`. -/
def DIRS : List String := ["UP", "DOWN", "LEFT", "RIGHT"]

/-- The direction names, in the order of `MOVES` in `search.py`. -/
def MOVES : List String := ["UP", "DOWN", "LEFT", "RIGHT"]

/-- The `DELTAS` mapping of `board.py`.  The final `(0, 0)` case models the
`DELTAS.get(opp_dir, (0, 0))` fallback used in `heuristic_score`; every other
call site passes one of the four direction names. -/
def DELTAS (d : String) : Int × Int :=
  if d = "UP" then (-1, 0)
  else if d = "DOWN" then (1, 0)
  else if d = "LEFT" then (0, -1)
  else if d = "RIGHT" then (0, 1)
  else (0, 0)

/-- A position `(row, col)`. -/
abbrev Pos := Int × Int

/-- Destination of one step in direction `d` from `pos`. -/
def moveDest (pos : Pos) (d : String) : Pos :=
  (pos.1 + (DELTAS d).1, pos.2 + (DELTAS d).2)

/-- The four neighbour cells of a position, in `DIRS` order (the iteration
order of every `for dr, dc in DELTAS.values()` loop in the source). -/
def neighborCells (pos : Pos) : List Pos :=
  DIRS.map (moveDest pos)

/-- A board: list of rows of cell characters. -/
abbrev Board := List (List Char)

/-- Read `board[r][c]`.  All reads performed by the source are guarded by
`inb`, so on well-formed boards the defaults are never consulted. -/
def cellAt (b : Board) (r c : Int) : Char :=
  (b.getD r.toNat []).getD c.toNat 'X'

/-- Write `board[r][c] = ch` (in-place in Python; functional here). -/
def setCell (b : Board) (r c : Int) (ch : Char) : Board :=
  b.set r.toNat ((b.getD r.toNat []).set c.toNat ch)

/-- Well-formed board of the fixed 18 × 20 arena size. -/
def WFboard (b : Board) : Prop :=
  b.length = 18 ∧ ∀ row ∈ b, row.length = 20

instance (b : Board) : Decidable (WFboard b) := by
  unfold WFboard; infer_instance

/-- The in-bounds grid cells as a finite set. -/
def gridCells : Finset Pos :=
  (Finset.Icc (0 : Int) 17) ×ˢ (Finset.Icc (0 : Int) 19)

/-- Grid cells plus one extra (a traversal's start, which the source never
bounds-checks before seeding its work list). -/
def candSet (start : Pos) : Finset Pos :=
  insert start gridCells

/-- `legal_moves` from `board.py`: directions whose destination is in bounds
and OPEN (`== " "`). -/
def legal_moves (b : Board) (pos : Pos) : List String :=
  DIRS.filter (fun d =>
    let del := DELTAS d
    inb (pos.1 + del.1) (pos.2 + del.2) &&
      decide (cellAt b (pos.1 + del.1) (pos.2 + del.2) = ' '))

/-- `next_legal_moves` from `heuristic.py`. -/
def next_legal_moves (b : Board) (pos : Pos) : Nat :=
  (legal_moves b pos).length

/-- `simulate_move` from `heuristic.py`: returns the destination and a crash
flag (destination out of bounds or `"X"`). -/
def simulate_move (b : Board) (pos : Pos) (move : String) : Pos × Bool :=
  let del := DELTAS move
  let nr := pos.1 + del.1
  let nc := pos.2 + del.2
  if !(inb nr nc) || decide (cellAt b nr nc = 'X') then (pos, true)
  else ((nr, nc), false)

/-- `is_valid_move` from `search.py`: destination in bounds and not `"X"`. -/
def is_valid_move (b : Board) (pos : Pos) (move : String) : Bool :=
  let del := DELTAS move
  let nr := pos.1 + del.1
  let nc := pos.2 + del.2
  inb nr nc && !(decide (cellAt b nr nc = 'X'))

/-- Generic fuel-indexed loop runner: `step` either produces the next state
or finishes with a result.  Used to embed the `while` loops of the source. -/
def loopRun {σ τ : Type} (step : σ → σ ⊕ τ) : Nat → σ → Option τ
  | 0, _ => none
  | n + 1, s =>
    match step s with
    | Sum.inr t => some t
    | Sum.inl s' => loopRun step n s'

/-- A loop whose step preserves an invariant and strictly decreases a
measure terminates within any fuel exceeding the initial measure, and its
result satisfies any postcondition implied by the invariant at exit. -/
theorem loopRun_spec {σ τ : Type} (step : σ → σ ⊕ τ) (Inv : σ → Prop)
    (μ : σ → Nat) (P : τ → Prop)
    (hstep : ∀ s s', Inv s → step s = Sum.inl s' → Inv s' ∧ μ s' < μ s)
    (hdone : ∀ s t, Inv s → step s = Sum.inr t → P t) :
    ∀ n s, Inv s → μ s < n → ∃ t, loopRun step n s = some t ∧ P t := by
  intro n
  induction n with
  | zero => intro s _ h; omega
  | succ n ih =>
    intro s hInv hμ
    cases hs : step s with
    | inr t => exact ⟨t, by simp [loopRun, hs], hdone s t hInv hs⟩
    | inl s' =>
      obtain ⟨hInv', hdec⟩ := hstep s s' hInv hs
      obtain ⟨t, ht, hP⟩ := ih s' hInv' (by omega)
      exact ⟨t, by simp [loopRun, hs, ht], hP⟩

/-- State of the `flood_fill_area` DFS loop in `board.py`: the `seen` set and
the explicit stack (top of stack at the head of the list). -/
structure FFSt where
  seen : Finset Pos
  stack : List Pos

/-- One iteration of the `while stack` loop of `flood_fill_area`.  Within one
expansion the four neighbour candidates are pairwise distinct, so testing
membership against the pre-iteration `seen` matches the Python code, which
inserts as it iterates. -/
def ffStep (b : Board) (st : FFSt) : FFSt ⊕ Finset Pos :=
  match st.stack with
  | [] => Sum.inr st.seen
  | pos :: rest =>
    let pushes := (neighborCells pos).filter (fun n =>
      decide (n ∉ st.seen) && inb n.1 n.2 && decide (cellAt b n.1 n.2 = ' '))
    Sum.inl ⟨st.seen ∪ pushes.toFinset, pushes.reverse ++ rest⟩

/-- Run the flood-fill loop; fuel 1000 is proved sufficient below. -/
def ffRun (b : Board) (fuel : Nat) (st : FFSt) : Option (Finset Pos) :=
  loopRun (ffStep b) fuel st

/-- `flood_fill_area` from `board.py` (the tuple conversion performed by
`to_tuple_board` is the identity on the modelled value): 0 if the start is
out of bounds or not OPEN, else the number of cells collected by the DFS. -/
def flood_fill_area (b : Board) (start : Pos) : Nat :=
  if !(inb start.1 start.2) || decide (cellAt b start.1 start.2 ≠ ' ') then 0
  else ((ffRun b 1000 ⟨{start}, [start]⟩).getD ∅).card

/-- State of the `longest_safe_path` loop in `heuristic.py`: explicit stack
of `(pos, visited)` pairs (top at head), the `memo` dictionary as an
association list (most recent binding first), and the running maximum. -/
structure LspSt where
  stack : List (Pos × Finset Pos)
  memo : List (Pos × Nat)
  maxLen : Nat

/-- Dictionary lookup `memo[pos]` / `pos in memo`. -/
def dictFind (memo : List (Pos × Nat)) (p : Pos) : Option Nat :=
  (memo.find? (fun e => decide (e.1 = p))).map (fun e => e.2)

/-- One iteration of the `while stack` loop of `longest_safe_path`.  In the
source, `best_here` ends up `1` exactly when at least one neighbour was
pushed, and the pushes happen in `DIRS` order (so they are popped in reverse
order; prepending the reversed push list models Python's append/pop on the
tail of a list). -/
def lspStep (b : Board) (st : LspSt) : LspSt ⊕ Nat :=
  match st.stack with
  | [] => Sum.inr st.maxLen
  | (pos, visited) :: rest =>
    match dictFind st.memo pos with
    | some v => Sum.inl ⟨rest, st.memo, max st.maxLen (v + visited.card)⟩
    | none =>
      let pushes := ((neighborCells pos).filter (fun n =>
        inb n.1 n.2 && !(decide (cellAt b n.1 n.2 = 'X')) &&
          decide (n ∉ visited))).map (fun n => (n, insert pos visited))
      let bestHere := if pushes.isEmpty then 0 else 1
      Sum.inl ⟨pushes.reverse ++ rest, (pos, bestHere) :: st.memo,
        max st.maxLen (visited.card + bestHere)⟩

/-- Initial state of the `longest_safe_path` loop. -/
def lspInit (start : Pos) : LspSt :=
  ⟨[(start, ∅)], [], 0⟩

/-- Run the longest-safe-path loop; fuel 2000 is proved sufficient below. -/
def lspRun (b : Board) (fuel : Nat) (st : LspSt) : Option Nat :=
  loopRun (lspStep b) fuel st

/-- `longest_safe_path` from `heuristic.py`. -/
def longest_safe_path (b : Board) (start : Pos) : Nat :=
  (lspRun b 2000 (lspInit start)).getD 0

/-- State of the bounded BFS inside `territorial_threat`: FIFO queue of
`(pos, depth)` pairs and the distance map. -/
structure BfsSt where
  queue : List (Pos × Nat)
  dist : Pos → Option Nat

/-- Point update of a distance map. -/
def updD (f : Pos → Option Nat) (p : Pos) (v : Nat) : Pos → Option Nat :=
  fun q => if q = p then some v else f q

/-- One iteration of the `while q` loop of the BFS in `territorial_threat`.
A popped entry at depth `>= max_depth` is discarded without expansion. -/
def bfsStep (b : Board) (maxDepth : Nat) (st : BfsSt) : BfsSt ⊕ (Pos → Option Nat) :=
  match st.queue with
  | [] => Sum.inr st.dist
  | (p, d) :: rest =>
    if maxDepth ≤ d then Sum.inl ⟨rest, st.dist⟩
    else
      let pushes := (neighborCells p).filter (fun n =>
        inb n.1 n.2 && !(decide (cellAt b n.1 n.2 = 'X')) &&
          (st.dist n).isNone)
      Sum.inl ⟨rest ++ pushes.map (fun n => (n, d + 1)),
        pushes.foldl (fun f n => updD f n (d + 1)) st.dist⟩

/-- The `bfs` helper of `territorial_threat`: distance map of the bounded
BFS from `start`; fuel 1000 is proved sufficient below. -/
def bfs (b : Board) (maxDepth : Nat) (start : Pos) : Pos → Option Nat :=
  (loopRun (bfsStep b maxDepth) 1000
    ⟨[(start, 0)], updD (fun _ => none) start 0⟩).getD (fun _ => none)

/-- Cell enumeration order of the final double loop of `territorial_threat`
(`for i in range(H): for j in range(W)` with `H, W` taken from the board). -/
def allCellsOf (b : Board) : List Pos :=
  (List.range b.length).flatMap (fun i =>
    (List.range (b.getD 0 []).length).map (fun j => ((i : Int), (j : Int))))

/-- The contested-cell test of `territorial_threat`: the evaluating agent
reaches the cell and the opponent reaches it at least as fast. -/
def ttContested : Option Nat → Option Nat → Bool
  | some dy, some dopp => decide (dopp ≤ dy)
  | _, _ => false

/-- `territorial_threat` from `heuristic.py`: fraction of the evaluating
agent's BFS-reachable cells that the opponent reaches at least as fast. -/
def territorial_threat (b : Board) (you opp : Pos) (maxDepth : Nat) : ℚ :=
  let dist_you := bfs b maxDepth you
  let dist_opp := bfs b maxDepth opp
  let cells := allCellsOf b
  let total := (cells.filter (fun p => (dist_you p).isSome)).length
  let threat := (cells.filter (fun p => ttContested (dist_you p) (dist_opp p))).length
  if total = 0 then 0 else (threat : ℚ) / (total : ℚ)

/-- Tunable weight from `heuristic.py`. -/
def W_CRASH_SELF : ℚ := -1

/-- Tunable weight from `heuristic.py`. -/
def W_CRASH_OPP : ℚ := 1

/-- Tunable weight from `heuristic.py`. -/
def W_PATH_DIFF : ℚ := 3 / 100

/-- Tunable weight from `heuristic.py`. -/
def W_HEADON : ℚ := -1 / 2

/-- Tunable weight from `heuristic.py`. -/
def W_RISK : ℚ := -1 / 5

/-- Tunable weight from `heuristic.py`. -/
def W_SURVIVAL : ℚ := 1 / 10

/-- Tunable weight from `heuristic.py`. -/
def W_ENDGAME : ℚ := 3 / 10

/-- Tunable weight from `heuristic.py`. -/
def W_EXPLORATION : ℚ := 1 / 20

/-- Tunable weight from `heuristic.py`. -/
def W_FREEDOM : ℚ := 1 / 50

/-- Tunable weight from `heuristic.py`. -/
def W_TERRITORY_THREAT : ℚ := -1 / 50

/-- The fatal sentinel score from `heuristic.py`. -/
def W_FATAL : ℚ := -9999

/-- The game state dictionary consumed by `choose_move` / `heuristic_score`.
`opponent` and `opponent_last_direction` are optional because the harness in
`case_closed_game.py` omits them; a missing `"opponent"` key raises
`KeyError` in `heuristic_score`, while the heading is read with `.get`. -/
structure PyState where
  board : Board
  you : Pos
  opponent : Option Pos
  opponent_last_direction : Option String

/-- Python exceptions that the embedding needs to distinguish. -/
inductive PyErr
  | keyError
deriving DecidableEq, Repr

/-- The head-on flag of `heuristic_score`: simulated new position equals the
opponent's current position. -/
def headonFlag (new_you opp : Pos) : Bool :=
  decide (new_you = opp)

/-- The `W_HEADON * headon` contribution of `heuristic_score`. -/
def headonTerm (new_you opp : Pos) : ℚ :=
  if headonFlag new_you opp then W_HEADON else 0

/-- Mark both agents' pre-move positions as walls, as `heuristic_score` does
on its private copy of the board. -/
def markedBoard (b : Board) (you opp : Pos) : Board :=
  setCell (setCell b you.1 you.2 'X') opp.1 opp.2 'X'

/-- The endgame test of `heuristic_score`: every cell of the board is `"X"`. -/
def endgameFlag (b : Board) : Bool :=
  b.all (fun row => row.all (fun cell => cell == 'X'))

/-- Score aggregation of `heuristic_score` for a non-fatal candidate, on the
already-marked board: baseline survival reward plus the weighted terms, in
the order of the source. -/
def hsSafeScore (board : Board) (new_you opp : Pos) (opp_dir : String) : ℚ :=
  let my_path_len := longest_safe_path board new_you
  let opp_path_len := longest_safe_path board opp
  let path_diff : Int := (my_path_len : Int) - (opp_path_len : Int)
  let threatFrac := territorial_threat board new_you opp 6
  let del := DELTAS opp_dir
  let predicted : Pos := (opp.1 + del.1, opp.2 + del.2)
  let risk : Bool := decide (new_you = predicted)
  let s1 : ℚ := W_SURVIVAL + W_PATH_DIFF * (path_diff : ℚ) +
    headonTerm new_you opp + (if risk then W_RISK else 0) +
    W_TERRITORY_THREAT * threatFrac
  let s2 : ℚ :=
    if cellAt board new_you.1 new_you.2 = ' ' then s1 + W_EXPLORATION else s1
  let s3 : ℚ := s2 + W_FREEDOM * (next_legal_moves board new_you : ℚ)
  if endgameFlag board then s3 + W_ENDGAME else s3

/-- Core of `heuristic_score` once the `"opponent"` access has succeeded:
simulate the candidate, return the fatal sentinel on a crash, mark both
pre-move positions as walls, re-check the destination, and otherwise
aggregate the weighted score. -/
def hsCore (b : Board) (you opp : Pos) (opp_dir : String) (move : String) : ℚ :=
  let nm := simulate_move b you move
  if nm.2 then W_FATAL
  else
    let board := markedBoard b you opp
    if !(inb nm.1.1 nm.1.2) || decide (cellAt board nm.1.1 nm.1.2 = 'X')
    then W_FATAL
    else hsSafeScore board nm.1 opp opp_dir

/-- `heuristic_score` from `heuristic.py`.  The board is deep-copied by the
source before any mutation, so the caller's state is untouched (this frame
property is proved against the heap-level embedding below). -/
def heuristic_score (s : PyState) (move : String) : Except PyErr ℚ :=
  match s.opponent with
  | none => Except.error PyErr.keyError
  | some opp =>
    Except.ok (hsCore s.board s.you opp (s.opponent_last_direction.getD "UP") move)

/-- Python's `max(scores, key=scores.get)` over an insertion-ordered dict:
fold keeping the first element attaining the maximal value. -/
def pyMaxFold (x : String × ℚ) (l : List (String × ℚ)) : String × ℚ :=
  l.foldl (fun best y => if y.2 > best.2 then y else best) x

/-- `choose_move` from `search.py`.  `rng` models the hidden state consumed
by `random.choice(MOVES)` in the no-valid-move fallback; the scoring path
propagates any exception raised by `heuristic_score` (there is no handler in
the source). -/
def choose_move (s : PyState) (rng : Nat) : Except PyErr String :=
  let valid_moves := MOVES.filter (fun m => is_valid_move s.board s.you m)
  match valid_moves with
  | [] => Except.ok (MOVES.getD (rng % 4) "UP")
  | m :: ms => do
    let q ← heuristic_score s m
    let rest ← ms.mapM (fun m' => (heuristic_score s m').map (fun r => (m', r)))
    pure (pyMaxFold (m, q) rest).1

/-- The set of acceptable outputs, `VALID_MOVES` in `agent.py`. -/
def VALID_MOVES : List String := ["UP", "DOWN", "LEFT", "RIGHT"]

/-- `sanitize_move` from `agent.py` (the strip/upper normalisation is the
identity on every string produced by `choose_move`). -/
def sanitize_move (m : String) : String :=
  if m ∈ VALID_MOVES then m else "UP"

/-- The per-tick decision of `agent.py`'s main loop: call `choose_move`,
replace any raised exception by `"UP"`, then sanitize. -/
def agent_decide (s : PyState) (rng : Nat) : String :=
  sanitize_move
    (match choose_move s rng with
     | Except.ok m => m
     | Except.error _ => "UP")

/-- A minimal heap of board objects, used to make Python's reference
semantics (and hence the deep-copy in `heuristic_score`) observable: boards
live at numbered references and in-place mutation targets a reference. -/
structure Heap where
  mem : Nat → Board
  next : Nat

/-- Read the board stored at a reference. -/
def hread (h : Heap) (r : Nat) : Board :=
  h.mem r

/-- Allocate a fresh reference holding `b` (what `deepcopy` does). -/
def halloc (h : Heap) (b : Board) : Nat × Heap :=
  (h.next, ⟨fun i => if i = h.next then b else h.mem i, h.next + 1⟩)

/-- Overwrite the board stored at a reference (in-place mutation). -/
def hwrite (h : Heap) (r : Nat) (b : Board) : Heap :=
  ⟨fun i => if i = r then b else h.mem i, h.next⟩

/-- Heap-level embedding of `heuristic_score`: the caller's board lives at
`boardRef`; the function deep-copies it to a fresh reference and performs
its two in-place wall-marking writes on that copy, exactly as the source
does.  Returns the outcome together with the post-call heap. -/
def heuristic_score_heap (h : Heap) (boardRef : Nat) (you : Pos)
    (oppO : Option Pos) (oppDirO : Option String) (move : String) :
    Except PyErr ℚ × Heap :=
  match oppO with
  | none => (Except.error PyErr.keyError, h)
  | some opp =>
    let alloc := halloc h (hread h boardRef)
    let bref := alloc.1
    let h1 := alloc.2
    let opp_dir := oppDirO.getD "UP"
    let nm := simulate_move (hread h1 bref) you move
    if nm.2 then (Except.ok W_FATAL, h1)
    else
      let h2 := hwrite h1 bref (setCell (hread h1 bref) you.1 you.2 'X')
      let h3 := hwrite h2 bref (setCell (hread h2 bref) opp.1 opp.2 'X')
      if !(inb nm.1.1 nm.1.2) ||
          decide (cellAt (hread h3 bref) nm.1.1 nm.1.2 = 'X')
      then (Except.ok W_FATAL, h3)
      else (Except.ok (hsSafeScore (hread h3 bref) nm.1 opp opp_dir), h3)

/-! ### Basic lemmas about the grid, neighbour cells, and board updates -/

theorem inb_iff_mem_grid (r c : Int) : inb r c = true ↔ ((r, c) : Pos) ∈ gridCells := by
  simp only [inb, gridCells, Finset.mem_product, Finset.mem_Icc, decide_eq_true_eq, H, W]
  omega

theorem gridCells_card : gridCells.card = 360 := by
  simp only [gridCells, Finset.card_product, Int.card_Icc]
  rfl

theorem candSet_card_le (p : Pos) : (candSet p).card ≤ 361 := by
  have h := Finset.card_insert_le p gridCells
  simpa [candSet, gridCells_card] using h

theorem mem_candSet_self (p : Pos) : p ∈ candSet p :=
  Finset.mem_insert_self p gridCells

theorem mem_candSet_of_inb {q : Pos} (h : inb q.1 q.2 = true) (p : Pos) :
    q ∈ candSet p :=
  Finset.mem_insert_of_mem ((inb_iff_mem_grid q.1 q.2).mp h)

theorem neighborCells_nodup (pos : Pos) : (neighborCells pos).Nodup := by
  simp [neighborCells, moveDest, DIRS, DELTAS, Prod.ext_iff]

theorem mem_neighborCells {pos q : Pos} :
    q ∈ neighborCells pos ↔ ∃ d ∈ DIRS, q = moveDest pos d := by
  simp only [neighborCells, List.mem_map, eq_comm]

theorem length_neighborCells (pos : Pos) : (neighborCells pos).length = 4 := by
  simp [neighborCells, DIRS]

theorem setCell_length (b : Board) (r c : Int) (ch : Char) :
    (setCell b r c ch).length = b.length := by
  simp [setCell]

theorem WFboard_setCell {b : Board} (h : WFboard b) (r c : Int) (ch : Char) :
    WFboard (setCell b r c ch) := by
  obtain ⟨hlen, hrow⟩ := h
  refine ⟨by simp [setCell, hlen], ?_⟩
  intro row hmem
  rcases Nat.lt_or_ge r.toNat b.length with hr | hr
  · rcases List.mem_or_eq_of_mem_set hmem with hmem' | rfl
    · exact hrow row hmem'
    · have hg : b.getD r.toNat [] = b[r.toNat] := List.getD_eq_getElem b [] hr
      rw [List.length_set, hg]
      exact hrow _ (List.getElem_mem hr)
  · rw [setCell, List.set_eq_of_length_le hr] at hmem
    exact hrow row hmem

theorem cellAt_mem {b : Board} (hWF : WFboard b) {r c : Int}
    (h : inb r c = true) : ∃ row ∈ b, cellAt b r c ∈ row := by
  obtain ⟨hlen, hrow⟩ := hWF
  have hb : (0 ≤ r ∧ r < H ∧ 0 ≤ c ∧ c < W) := by
    simpa [inb] using h
  have hr : r.toNat < b.length := by simp [hlen, H] at hb ⊢; omega
  have hg : b.getD r.toNat [] = b[r.toNat] := List.getD_eq_getElem b [] hr
  have hrl : b[r.toNat].length = 20 := hrow _ (List.getElem_mem hr)
  have hc : c.toNat < b[r.toNat].length := by simp [hrl, W] at hb ⊢; omega
  refine ⟨b[r.toNat], List.getElem_mem hr, ?_⟩
  rw [cellAt, hg, List.getD_eq_getElem _ 'X' hc]
  exact List.getElem_mem hc

theorem cellAt_setCell_same {b : Board} (hWF : WFboard b) {r c : Int}
    (h : inb r c = true) (ch : Char) : cellAt (setCell b r c ch) r c = ch := by
  obtain ⟨hlen, hrow⟩ := hWF
  have hb : (0 ≤ r ∧ r < H ∧ 0 ≤ c ∧ c < W) := by
    simpa [inb] using h
  have hr : r.toNat < b.length := by simp [hlen, H] at hb ⊢; omega
  have hg : b.getD r.toNat [] = b[r.toNat] := List.getD_eq_getElem b [] hr
  have hrl : b[r.toNat].length = 20 := hrow _ (List.getElem_mem hr)
  have hc : c.toNat < (b[r.toNat].set c.toNat ch).length := by
    simp [hrl, W] at hb ⊢; omega
  have hr2 : r.toNat < (setCell b r c ch).length := by
    simpa [setCell_length] using hr
  have hgrow : (setCell b r c ch).getD r.toNat [] = b[r.toNat].set c.toNat ch := by
    rw [List.getD_eq_getElem _ [] hr2]
    simp [setCell, hg, List.getElem_set_self, List.getElem?_eq_getElem hr]
  rw [cellAt, hgrow, List.getD_eq_getElem _ 'X' hc]
  exact List.getElem_set_self hc

/-! ### Correctness of `flood_fill_area` -/

/-- A cell that is in bounds and OPEN. -/
def openCell (b : Board) (q : Pos) : Prop :=
  inb q.1 q.2 = true ∧ cellAt b q.1 q.2 = ' '

/-- One traversal step of the flood fill: `q` is a 4-neighbour of `p` and is
in bounds and OPEN. -/
def ffAdj (b : Board) (p q : Pos) : Prop :=
  q ∈ neighborCells p ∧ openCell b q

/-- 4-connected reachability through OPEN cells (reflexive at the start). -/
def Reaches (b : Board) (s q : Pos) : Prop :=
  Relation.ReflTransGen (ffAdj b) s q

/-- Loop invariant of the flood-fill DFS. -/
def FFInv (b : Board) (s : Pos) (st : FFSt) : Prop :=
  s ∈ st.seen ∧
  (∀ p ∈ st.stack, p ∈ st.seen) ∧
  (∀ p ∈ st.seen, p = s ∨ openCell b p) ∧
  (∀ p ∈ st.seen, Reaches b s p) ∧
  (∀ p ∈ st.seen, p ∉ st.stack → ∀ q, ffAdj b p q → q ∈ st.seen)

/-- Termination measure of the flood-fill DFS. -/
def ffMeasure (s : Pos) (st : FFSt) : Nat :=
  2 * (candSet s \ st.seen).card + st.stack.length

theorem ffStep_inl_spec (b : Board) (s : Pos) (st st' : FFSt)
    (hInv : FFInv b s st) (hstep : ffStep b st = Sum.inl st') :
    FFInv b s st' ∧ ffMeasure s st' < ffMeasure s st := by
  obtain ⟨hs, hstk, hopen, hreach, hclose⟩ := hInv
  match hstack : st.stack with
  | [] => simp [ffStep, hstack] at hstep
  | pos :: rest =>
    simp only [ffStep, hstack] at hstep
    set P := (neighborCells pos).filter (fun n =>
      decide (n ∉ st.seen) && inb n.1 n.2 && decide (cellAt b n.1 n.2 = ' ')) with hP
    obtain rfl : st' = ⟨st.seen ∪ P.toFinset, P.reverse ++ rest⟩ :=
      ((Sum.inl.injEq _ _).mp hstep).symm
    have hposseen : pos ∈ st.seen := hstk pos (by simp [hstack])
    have hPmem : ∀ q ∈ P, q ∉ st.seen ∧ openCell b q ∧ q ∈ neighborCells pos := by
      intro q hq
      rw [hP, List.mem_filter] at hq
      obtain ⟨hnb, hcond⟩ := hq
      simp only [Bool.and_eq_true, decide_eq_true_eq] at hcond
      exact ⟨hcond.1.1, ⟨hcond.1.2, hcond.2⟩, hnb⟩
    have hPnodup : P.Nodup := (neighborCells_nodup pos).filter _
    constructor
    · refine ⟨Finset.mem_union_left _ hs, ?_, ?_, ?_, ?_⟩
      · intro p hp
        rcases List.mem_append.mp hp with hp | hp
        · exact Finset.mem_union_right _ (List.mem_toFinset.mpr (List.mem_reverse.mp hp))
        · exact Finset.mem_union_left _ (hstk p (by simp [hstack, hp]))
      · intro p hp
        rcases Finset.mem_union.mp hp with hp | hp
        · exact hopen p hp
        · exact Or.inr (hPmem p (List.mem_toFinset.mp hp)).2.1
      · intro p hp
        rcases Finset.mem_union.mp hp with hp | hp
        · exact hreach p hp
        · exact (hreach pos hposseen).tail
            ⟨(hPmem p (List.mem_toFinset.mp hp)).2.2, (hPmem p (List.mem_toFinset.mp hp)).2.1⟩
      · intro p hp hnstk q hadj
        have hpP : p ∉ P := by
          intro hmem
          exact hnstk (List.mem_append.mpr (Or.inl (List.mem_reverse.mpr hmem)))
        have hpseen : p ∈ st.seen := by
          rcases Finset.mem_union.mp hp with hp | hp
          · exact hp
          · exact absurd (List.mem_toFinset.mp hp) hpP
        by_cases hpe : p = pos
        · subst hpe
          by_cases hq : q ∈ st.seen
          · exact Finset.mem_union_left _ hq
          · refine Finset.mem_union_right _ (List.mem_toFinset.mpr ?_)
            rw [hP, List.mem_filter]
            refine ⟨hadj.1, ?_⟩
            simp only [Bool.and_eq_true, decide_eq_true_eq]
            exact ⟨⟨hq, hadj.2.1⟩, hadj.2.2⟩
        · have : p ∉ st.stack := by
            rw [hstack]
            intro hmem
            rcases List.mem_cons.mp hmem with h | h
            · exact hpe h
            · exact hnstk (List.mem_append.mpr (Or.inr h))
          exact Finset.mem_union_left _ (hclose p hpseen this q hadj)
    · have hsub : P.toFinset ⊆ candSet s \ st.seen := by
        intro q hq
        have := hPmem q (List.mem_toFinset.mp hq)
        exact Finset.mem_sdiff.mpr ⟨mem_candSet_of_inb this.2.1.1 s, this.1⟩
      have hdiff : candSet s \ (st.seen ∪ P.toFinset) = (candSet s \ st.seen) \ P.toFinset := by
        ext q; simp [Finset.mem_sdiff]; tauto
      have hcard : (candSet s \ (st.seen ∪ P.toFinset)).card
          = (candSet s \ st.seen).card - P.toFinset.card := by
        rw [hdiff, Finset.card_sdiff hsub]
      have hPcard : P.toFinset.card = P.length := List.toFinset_card_of_nodup hPnodup
      have hle : P.toFinset.card ≤ (candSet s \ st.seen).card := Finset.card_le_card hsub
      simp only [ffMeasure, hstack, hcard, List.length_append, List.length_reverse,
        List.length_cons]
      omega

theorem ffStep_inr_spec (b : Board) (s : Pos) (st : FFSt) (t : Finset Pos)
    (hInv : FFInv b s st) (hstep : ffStep b st = Sum.inr t) :
    ↑t = {q | Reaches b s q} := by
  obtain ⟨hs, _, _, hreach, hclose⟩ := hInv
  match hstack : st.stack with
  | p :: rest => simp [ffStep, hstack] at hstep
  | [] =>
    simp only [ffStep, hstack] at hstep
    obtain rfl : t = st.seen := ((Sum.inr.injEq _ _).mp hstep).symm
    ext q
    simp only [Finset.coe_sort_coe, Set.mem_setOf_eq, Finset.mem_coe]
    constructor
    · exact hreach q
    · intro hq
      induction hq with
      | refl => exact hs
      | tail _ hadj ih =>
        exact hclose _ ih (by simp [hstack]) _ hadj

theorem ffRun_reaches (b : Board) (s : Pos) :
    ∃ t, ffRun b 1000 ⟨{s}, [s]⟩ = some t ∧ ↑t = {q | Reaches b s q} := by
  have hinit : FFInv b s ⟨{s}, [s]⟩ := by
    refine ⟨Finset.mem_singleton_self s, ?_, ?_, ?_, ?_⟩
    · intro p hp; simpa using hp
    · intro p hp; exact Or.inl (Finset.mem_singleton.mp hp)
    · intro p hp
      rw [Finset.mem_singleton.mp hp]
      exact Relation.ReflTransGen.refl
    · intro p hp hstk
      exact absurd (by simpa using hp) (by simpa using hstk)
  have hμ : ffMeasure s ⟨{s}, [s]⟩ < 1000 := by
    have h1 : (candSet s \ {s}).card ≤ (candSet s).card :=
      Finset.card_le_card (Finset.sdiff_subset)
    have h2 := candSet_card_le s
    simp only [ffMeasure, List.length_singleton]
    omega
  exact loopRun_spec (ffStep b) (FFInv b s) (ffMeasure s)
    (fun t => ↑t = {q | Reaches b s q})
    (fun st st' hI hs => ffStep_inl_spec b s st st' hI hs)
    (fun st t hI hs => ffStep_inr_spec b s st t hI hs) 1000 ⟨{s}, [s]⟩ hinit hμ

/-! ### Termination and bounds for `longest_safe_path` -/

/-- Keys of the memo dictionary. -/
def lspKeys (memo : List (Pos × Nat)) : Finset Pos :=
  (memo.map Prod.fst).toFinset

/-- Loop invariant of the longest-safe-path DFS: every stacked position and
visited set stays inside the candidate cells, memo values are at most 1
(`best_here` is 0 or 1 in the source), and the running maximum is bounded. -/
def LspInv (s : Pos) (st : LspSt) : Prop :=
  (∀ e ∈ st.stack, e.1 ∈ candSet s ∧ e.2 ⊆ candSet s) ∧
  (∀ e ∈ st.memo, e.2 ≤ 1) ∧
  st.maxLen ≤ 362

/-- Termination measure of the longest-safe-path DFS. -/
def lspMeasure (s : Pos) (st : LspSt) : Nat :=
  5 * (candSet s \ lspKeys st.memo).card + st.stack.length

theorem visited_card_le {s : Pos} {v : Finset Pos} (h : v ⊆ candSet s) :
    v.card ≤ 361 :=
  le_trans (Finset.card_le_card h) (candSet_card_le s)

theorem lspStep_inl_spec (b : Board) (s : Pos) (st st' : LspSt)
    (hInv : LspInv s st) (hstep : lspStep b st = Sum.inl st') :
    LspInv s st' ∧ lspMeasure s st' < lspMeasure s st := by
  obtain ⟨hstk, hmemo, hmax⟩ := hInv
  match hstack : st.stack with
  | [] => simp [lspStep, hstack] at hstep
  | (pos, visited) :: rest =>
    have hhead : pos ∈ candSet s ∧ visited ⊆ candSet s :=
      hstk (pos, visited) (by simp [hstack])
    match hfind : dictFind st.memo pos with
    | some v =>
      simp only [lspStep, hstack, hfind] at hstep
      obtain rfl : st' = ⟨rest, st.memo, max st.maxLen (v + visited.card)⟩ :=
        ((Sum.inl.injEq _ _).mp hstep).symm
      have hv : v ≤ 1 := by
        rw [dictFind] at hfind
        obtain ⟨e, he, hev⟩ := Option.map_eq_some'.mp hfind
        exact hev ▸ hmemo e (List.mem_of_find?_eq_some he)
      refine ⟨⟨fun e he => hstk e (by simp [hstack, he]), hmemo, ?_⟩, ?_⟩
      · exact Nat.max_le.mpr ⟨hmax, by
          have := visited_card_le hhead.2
          omega⟩
      · simp [lspMeasure, hstack]
    | none =>
      simp only [lspStep, hstack, hfind] at hstep
      set flt := (neighborCells pos).filter (fun n =>
        inb n.1 n.2 && !(decide (cellAt b n.1 n.2 = 'X')) &&
          decide (n ∉ visited)) with hflt
      set pushes := flt.map (fun n => (n, insert pos visited)) with hpushes
      set bestHere := if pushes.isEmpty then 0 else 1 with hbh
      obtain rfl : st' = ⟨pushes.reverse ++ rest, (pos, bestHere) :: st.memo,
          max st.maxLen (visited.card + bestHere)⟩ :=
        ((Sum.inl.injEq _ _).mp hstep).symm
      have hbh1 : bestHere ≤ 1 := by
        rw [hbh]; split <;> omega
      have hkey : pos ∉ lspKeys st.memo := by
        rw [dictFind] at hfind
        have hf := Option.map_eq_none'.mp hfind
        intro hmem
        rw [lspKeys, List.mem_toFinset, List.mem_map] at hmem
        obtain ⟨e, he, hfst⟩ := hmem
        have := List.find?_eq_none.mp hf e he
        simp [hfst] at this
      have hkeys' : lspKeys ((pos, bestHere) :: st.memo)
          = insert pos (lspKeys st.memo) := by
        simp [lspKeys]
      have hposmem : pos ∈ candSet s \ lspKeys st.memo :=
        Finset.mem_sdiff.mpr ⟨hhead.1, hkey⟩
      have hcard : (candSet s \ lspKeys ((pos, bestHere) :: st.memo)).card
          = (candSet s \ lspKeys st.memo).card - 1 := by
        rw [hkeys', Finset.sdiff_insert, Finset.card_erase_of_mem hposmem]
      have hcardpos : 1 ≤ (candSet s \ lspKeys st.memo).card :=
        Finset.card_pos.mpr ⟨pos, hposmem⟩
      have hplen : pushes.length ≤ 4 := by
        rw [hpushes, List.length_map, hflt]
        calc flt.length ≤ (neighborCells pos).length := List.length_filter_le _ _
        _ = 4 := length_neighborCells pos
      constructor
      · refine ⟨?_, ?_, ?_⟩
        · intro e he
          rcases List.mem_append.mp he with he | he
          · rw [List.mem_reverse, hpushes, List.mem_map] at he
            obtain ⟨n, hn, rfl⟩ := he
            rw [hflt, List.mem_filter] at hn
            have hcond := hn.2
            simp only [Bool.and_eq_true, decide_eq_true_eq] at hcond
            exact ⟨mem_candSet_of_inb hcond.1.1 s,
              Finset.insert_subset hhead.1 hhead.2⟩
          · exact hstk e (by simp [hstack, he])
        · intro e he
          rcases List.mem_cons.mp he with rfl | he
          · exact hbh1
          · exact hmemo e he
        · refine Nat.max_le.mpr ⟨hmax, ?_⟩
          have := visited_card_le hhead.2
          omega
      · simp only [lspMeasure, hcard, List.length_append, List.length_reverse,
          hstack, List.length_cons]
        omega

theorem lspRun_le (b : Board) (s : Pos) :
    ∃ r, lspRun b 2000 (lspInit s) = some r ∧ r ≤ 362 := by
  have hinit : LspInv s (lspInit s) := by
    refine ⟨?_, ?_, ?_⟩
    · intro e he
      simp only [lspInit, List.mem_singleton] at he
      subst he
      exact ⟨mem_candSet_self s, Finset.empty_subset _⟩
    · intro e he; simp [lspInit] at he
    · exact Nat.zero_le _
  have hμ : lspMeasure s (lspInit s) < 2000 := by
    have h1 : (candSet s \ lspKeys []).card ≤ 361 := by
      have : candSet s \ lspKeys [] = candSet s := by simp [lspKeys]
      rw [this]; exact candSet_card_le s
    simp only [lspMeasure, lspInit, List.length_singleton]
    omega
  exact loopRun_spec (lspStep b) (LspInv s) (lspMeasure s) (fun r => r ≤ 362)
    (fun st st' hI hs => lspStep_inl_spec b s st st' hI hs)
    (fun st t hI hs => by
      match hstack : st.stack with
      | (pos, visited) :: rest =>
        cases hfind : dictFind st.memo pos <;> simp [lspStep, hstack, hfind] at hs
      | [] =>
        simp only [lspStep, hstack] at hs
        obtain rfl : t = st.maxLen := ((Sum.inr.injEq _ _).mp hs).symm
        exact hI.2.2) 2000 (lspInit s) hinit hμ

theorem longest_safe_path_le (b : Board) (s : Pos) :
    longest_safe_path b s ≤ 362 := by
  obtain ⟨r, hr, hle⟩ := lspRun_le b s
  simpa [longest_safe_path, hr] using hle

/-! ### Termination of the bounded BFS in `territorial_threat` -/

/-- Termination measure for the BFS loop. -/
def bfsMeasure (s : Pos) (st : BfsSt) : Nat :=
  2 * ((candSet s).filter (fun p => st.dist p = none)).card + st.queue.length

theorem foldl_updD_none_iff (l : List Pos) (f : Pos → Option Nat) (v : Nat)
    (p : Pos) :
    (l.foldl (fun g n => updD g n v) f) p = none ↔ f p = none ∧ p ∉ l := by
  induction l generalizing f with
  | nil => simp
  | cons a l ih =>
    simp only [List.foldl_cons, ih, updD, List.mem_cons]
    constructor
    · rintro ⟨h1, h2⟩
      by_cases hpa : p = a
      · simp [hpa] at h1
      · simp [hpa] at h1
        exact ⟨h1, by tauto⟩
    · rintro ⟨h1, h2⟩
      have hpa : p ≠ a := fun h => h2 (Or.inl h)
      simp [hpa, h1]
      tauto

theorem bfsStep_decrease (b : Board) (maxD : Nat) (s : Pos) (st st' : BfsSt)
    (hstep : bfsStep b maxD st = Sum.inl st') :
    bfsMeasure s st' < bfsMeasure s st := by
  match hqueue : st.queue with
  | [] => simp [bfsStep, hqueue] at hstep
  | (p, d) :: rest =>
    simp only [bfsStep, hqueue] at hstep
    by_cases hd : maxD ≤ d
    · rw [if_pos hd] at hstep
      obtain rfl : st' = ⟨rest, st.dist⟩ := ((Sum.inl.injEq _ _).mp hstep).symm
      simp [bfsMeasure, hqueue]
    · rw [if_neg hd] at hstep
      set pushes := (neighborCells p).filter (fun n =>
        inb n.1 n.2 && !(decide (cellAt b n.1 n.2 = 'X')) &&
          (st.dist n).isNone) with hpushes
      obtain rfl : st' = ⟨rest ++ pushes.map (fun n => (n, d + 1)),
          pushes.foldl (fun f n => updD f n (d + 1)) st.dist⟩ :=
        ((Sum.inl.injEq _ _).mp hstep).symm
      have hPmem : ∀ q ∈ pushes, inb q.1 q.2 = true ∧ st.dist q = none := by
        intro q hq
        rw [hpushes, List.mem_filter] at hq
        have hcond := hq.2
        simp only [Bool.and_eq_true, decide_eq_true_eq, Option.isNone_iff_eq_none]
          at hcond
        exact ⟨hcond.1.1, hcond.2⟩
      have hPnodup : pushes.Nodup := (neighborCells_nodup p).filter _
      have hsub : pushes.toFinset ⊆
          (candSet s).filter (fun q => st.dist q = none) := by
        intro q hq
        have := hPmem q (List.mem_toFinset.mp hq)
        exact Finset.mem_filter.mpr ⟨mem_candSet_of_inb this.1 s, this.2⟩
      have hset : (candSet s).filter
            (fun q => (pushes.foldl (fun f n => updD f n (d + 1)) st.dist) q = none)
          = ((candSet s).filter (fun q => st.dist q = none)) \ pushes.toFinset := by
        ext q
        simp only [Finset.mem_filter, Finset.mem_sdiff, List.mem_toFinset,
          foldl_updD_none_iff]
        tauto
      have hcard : ((candSet s).filter
            (fun q => (pushes.foldl (fun f n => updD f n (d + 1)) st.dist) q = none)).card
          = ((candSet s).filter (fun q => st.dist q = none)).card
            - pushes.toFinset.card := by
        rw [hset, Finset.card_sdiff hsub]
      have hPcard : pushes.toFinset.card = pushes.length :=
        List.toFinset_card_of_nodup hPnodup
      have hle := Finset.card_le_card hsub
      simp only [bfsMeasure, hqueue, hcard, List.length_append, List.length_map,
        List.length_cons]
      omega

theorem bfs_run_total (b : Board) (maxD : Nat) (s : Pos) :
    ∃ f, loopRun (bfsStep b maxD) 1000
      ⟨[(s, 0)], updD (fun _ => none) s 0⟩ = some f := by
  have hμ : bfsMeasure s ⟨[(s, 0)], updD (fun _ => none) s 0⟩ < 1000 := by
    have h1 : ((candSet s).filter
        (fun p => (updD (fun _ => none) s 0) p = none)).card ≤ 361 :=
      le_trans (Finset.card_filter_le _ _) (candSet_card_le s)
    simp only [bfsMeasure, List.length_singleton]
    omega
  obtain ⟨f, hf, _⟩ := loopRun_spec (bfsStep b maxD) (fun _ => True)
    (bfsMeasure s) (fun _ => True)
    (fun st st' _ hs => ⟨trivial, bfsStep_decrease b maxD s st st' hs⟩)
    (fun _ _ _ _ => trivial) 1000 ⟨[(s, 0)], updD (fun _ => none) s 0⟩ trivial hμ
  exact ⟨f, hf⟩

/-! ### Bounds for `territorial_threat` -/

theorem length_filter_mono {α} (p q : α → Bool) (l : List α)
    (h : ∀ a ∈ l, p a = true → q a = true) :
    (l.filter p).length ≤ (l.filter q).length := by
  induction l with
  | nil => simp
  | cons a l ih =>
    have ih' := ih (fun x hx => h x (List.mem_cons_of_mem a hx))
    by_cases hp : p a = true
    · rw [List.filter_cons_of_pos hp, List.filter_cons_of_pos (h a (by simp) hp)]
      simpa using ih'
    · rw [List.filter_cons_of_neg (by simpa using hp)]
      rcases Bool.eq_false_or_eq_true (q a) with hq | hq
      · rw [List.filter_cons_of_pos hq]
        exact le_trans ih' (Nat.le_succ _)
      · rw [List.filter_cons_of_neg (by simp [hq])]
        exact ih'

theorem ttContested_isSome {oy oo : Option Nat}
    (h : ttContested oy oo = true) : oy.isSome = true := by
  match oy, oo with
  | some dy, some dopp => rfl
  | some dy, none => simp [ttContested] at h
  | none, _ => simp [ttContested] at h

theorem territorial_threat_bounds (b : Board) (you opp : Pos) (maxD : Nat) :
    0 ≤ territorial_threat b you opp maxD ∧
      territorial_threat b you opp maxD ≤ 1 := by
  rw [territorial_threat]
  set dy := bfs b maxD you
  set dopp := bfs b maxD opp
  set cells := allCellsOf b
  set total := (cells.filter (fun p => (dy p).isSome)).length with htotal
  set threat := (cells.filter (fun p => ttContested (dy p) (dopp p))).length
    with hthreat
  have hmono : threat ≤ total := by
    rw [hthreat, htotal]
    exact length_filter_mono _ _ cells (fun a _ ha => ttContested_isSome ha)
  by_cases h0 : total = 0
  · simp [h0]
  · rw [if_neg h0]
    have hpos : (0 : ℚ) < (total : ℚ) := by
      exact_mod_cast Nat.pos_of_ne_zero h0
    constructor
    · positivity
    · rw [div_le_one hpos]
      exact_mod_cast hmono

/-! ### Lower bound for non-fatal scores -/

theorem heuristic_score_some {s : PyState} {opp : Pos} (h : s.opponent = some opp)
    (move : String) :
    heuristic_score s move
      = Except.ok (hsCore s.board s.you opp (s.opponent_last_direction.getD "UP") move) := by
  rw [heuristic_score, h]

theorem hsSafeScore_gt_fatal (board : Board) (new_you opp : Pos)
    (opp_dir : String) : W_FATAL < hsSafeScore board new_you opp opp_dir := by
  have hmp := longest_safe_path_le board new_you
  have hop := longest_safe_path_le board opp
  have htt := territorial_threat_bounds board new_you opp 6
  have hfr : (0 : ℚ) ≤ (next_legal_moves board new_you : ℚ) := by positivity
  have hmpq : (0 : ℚ) ≤ (longest_safe_path board new_you : ℚ) := by positivity
  have hopq : (longest_safe_path board opp : ℚ) ≤ 362 := by exact_mod_cast hop
  rw [hsSafeScore, headonTerm]
  simp only [W_SURVIVAL, W_PATH_DIFF, W_HEADON, W_RISK, W_TERRITORY_THREAT,
    W_EXPLORATION, W_FREEDOM, W_ENDGAME, W_FATAL]
  push_cast
  split_ifs <;> linarith [htt.1, htt.2]

/-! ### Claim theorems -/

/-- C1: for every 18×20 game state and candidate direction, `heuristic_score`
returns the fatal sentinel `W_FATAL = -9999` whenever the candidate's
destination cell is out of bounds or a WALL, and the sentinel is strictly
lower than every non-fatal score the function returns. -/
theorem heuristic_score_fatal_sentinel (s : PyState) (opp : Pos) (move : String)
    (hWF : WFboard s.board) (hopp : s.opponent = some opp)
    (hyou : inb s.you.1 s.you.2 = true) (hoppb : inb opp.1 opp.2 = true)
    (hmv : move ∈ MOVES) :
    ((inb (moveDest s.you move).1 (moveDest s.you move).2 = false ∨
        cellAt s.board (moveDest s.you move).1 (moveDest s.you move).2 = 'X') →
      heuristic_score s move = Except.ok W_FATAL) ∧
    (∀ q : ℚ, heuristic_score s move = Except.ok q → q ≠ W_FATAL →
      W_FATAL < q) := by
  constructor
  · intro hfatal
    rw [heuristic_score_some hopp]
    have hnm : (simulate_move s.board s.you move).2 = true := by
      rw [simulate_move]
      simp only [moveDest] at hfatal
      rcases hfatal with h | h <;> simp [h]
    rw [hsCore]
    simp [hnm]
  · intro q hq hne
    rw [heuristic_score_some hopp] at hq
    obtain rfl : q = hsCore s.board s.you opp
        (s.opponent_last_direction.getD "UP") move :=
      ((Except.ok.injEq _ _).mp hq).symm
    rw [hsCore] at hne ⊢
    by_cases h1 : (simulate_move s.board s.you move).2 = true
    · simp [h1] at hne
    · rw [Bool.not_eq_true] at h1
      simp only [h1, Bool.false_eq_true, if_false] at hne ⊢
      by_cases h2 : (!(inb (simulate_move s.board s.you move).1.1
            (simulate_move s.board s.you move).1.2) ||
          decide (cellAt (markedBoard s.board s.you opp)
            (simulate_move s.board s.you move).1.1
            (simulate_move s.board s.you move).1.2 = 'X')) = true
      · simp [h2] at hne
      · rw [Bool.not_eq_true] at h2
        simp only [h2, Bool.false_eq_true, if_false] at hne ⊢
        exact hsSafeScore_gt_fatal _ _ _ _

/-- C4: for every 18×20 board and in-bounds agent positions, the territory
threat ratio lies in `[0, 1]`; a cell counts as contested exactly when both
BFS maps reach it and the opponent's depth is at most the evaluating
agent's (ties favour the opponent); and the ratio is 0 when the opponent's
BFS reaches no cell that the evaluating agent's BFS reaches. -/
theorem territorial_threat_spec (b : Board) (you opp : Pos) (maxD : Nat)
    (hWF : WFboard b) (hyou : inb you.1 you.2 = true)
    (hopp : inb opp.1 opp.2 = true) :
    (0 ≤ territorial_threat b you opp maxD ∧
      territorial_threat b you opp maxD ≤ 1) ∧
    (∀ p : Pos, ttContested (bfs b maxD you p) (bfs b maxD opp p) = true ↔
      ∃ dy dopp, bfs b maxD you p = some dy ∧ bfs b maxD opp p = some dopp ∧
        dopp ≤ dy) ∧
    ((∀ p : Pos, (bfs b maxD you p).isSome = true → bfs b maxD opp p = none) →
      territorial_threat b you opp maxD = 0) := by
  refine ⟨territorial_threat_bounds b you opp maxD, ?_, ?_⟩
  · intro p
    cases hy : bfs b maxD you p <;> cases ho : bfs b maxD opp p <;>
      simp [ttContested]
  · intro hz
    have hnil : (allCellsOf b).filter
        (fun p => ttContested (bfs b maxD you p) (bfs b maxD opp p)) = [] := by
      rw [List.filter_eq_nil_iff]
      intro p _
      cases hy : bfs b maxD you p with
      | none => simp [ttContested]
      | some dy =>
        have := hz p (by simp [hy])
        simp [ttContested, this]
    rw [territorial_threat]
    simp only [hnil, List.length_nil, Nat.cast_zero, zero_div]
    split_ifs <;> rfl

/-- C5: the `longest_safe_path` loop terminates on every finite board and
start position — the fuel-indexed run completes (fuel 2000 suffices), and
`longest_safe_path` is the total function returning its result. -/
theorem longest_safe_path_total (b : Board) (start : Pos) :
    ∃ r, lspRun b 2000 (lspInit start) = some r ∧
      longest_safe_path b start = r := by
  obtain ⟨r, hr, _⟩ := lspRun_le b start
  exact ⟨r, hr, by rw [longest_safe_path, hr]; rfl⟩

/-- C6: flood fill returns 0 when the start is out of bounds or not OPEN;
otherwise it returns exactly the number of distinct OPEN cells 4-connected
reachable from the start (including the start), a quantity that depends only
on the reachability relation, hence is independent of traversal order. -/
theorem flood_fill_area_spec (b : Board) (start : Pos) (hWF : WFboard b) :
    ((inb start.1 start.2 = false ∨ cellAt b start.1 start.2 ≠ ' ') →
      flood_fill_area b start = 0) ∧
    (openCell b start →
      flood_fill_area b start = Set.ncard {q | Reaches b start q}) := by
  constructor
  · intro hfatal
    rw [flood_fill_area, if_pos]
    rcases hfatal with h | h <;> simp [h]
  · rintro ⟨hinb, hcell⟩
    rw [flood_fill_area, if_neg (by simp [hinb, hcell])]
    obtain ⟨t, ht, hset⟩ := ffRun_reaches b start
    rw [ht]
    simp only [Option.getD_some]
    rw [← hset, Set.ncard_coe_Finset]

/-- C9: whenever `heuristic_score` returns a non-fatal value on a state
whose opponent position is in bounds, the simulated new position differs
from the opponent's current position, so the head-on flag is false and the
`W_HEADON` term contributes zero — the opponent's pre-move cell is marked as
a wall before the destination re-check. -/
theorem heuristic_score_no_headon (s : PyState) (opp : Pos) (move : String)
    (q : ℚ) (hWF : WFboard s.board) (hopp : s.opponent = some opp)
    (hoppb : inb opp.1 opp.2 = true)
    (hq : heuristic_score s move = Except.ok q) (hne : q ≠ W_FATAL) :
    (simulate_move s.board s.you move).1 ≠ opp ∧
    headonFlag (simulate_move s.board s.you move).1 opp = false ∧
    headonTerm (simulate_move s.board s.you move).1 opp = 0 := by
  rw [heuristic_score_some hopp] at hq
  obtain rfl : q = hsCore s.board s.you opp
      (s.opponent_last_direction.getD "UP") move :=
    ((Except.ok.injEq _ _).mp hq).symm
  rw [hsCore] at hne
  have hneq : (simulate_move s.board s.you move).1 ≠ opp := by
    by_cases h1 : (simulate_move s.board s.you move).2 = true
    · simp [h1] at hne
    · rw [Bool.not_eq_true] at h1
      simp only [h1, Bool.false_eq_true, if_false] at hne
      intro heq
      have hmark : cellAt (markedBoard s.board s.you opp)
          (simulate_move s.board s.you move).1.1
          (simulate_move s.board s.you move).1.2 = 'X' := by
        rw [heq, markedBoard]
        exact cellAt_setCell_same (WFboard_setCell hWF _ _ _) hoppb 'X'
      simp [hmark] at hne
  refine ⟨hneq, ?_, ?_⟩
  · simp [headonFlag, hneq]
  · simp [headonTerm, headonFlag, hneq]

/-- C8: every direction returned by `legal_moves` leads to a destination
cell that is in bounds and OPEN — never out of bounds and never a WALL.
(The function is a pure read of the board: it performs no writes.) -/
theorem legal_moves_spec (b : Board) (pos : Pos) (d : String)
    (hd : d ∈ legal_moves b pos) :
    inb (moveDest pos d).1 (moveDest pos d).2 = true ∧
    cellAt b (moveDest pos d).1 (moveDest pos d).2 = ' ' ∧
    cellAt b (moveDest pos d).1 (moveDest pos d).2 ≠ 'X' := by
  simp only [legal_moves, List.mem_filter, Bool.and_eq_true,
    decide_eq_true_eq] at hd
  obtain ⟨-, hinb, hcell⟩ := hd
  simp only [moveDest]
  exact ⟨hinb, hcell, by simp [hcell]⟩

/-- C10: on a board whose cells are drawn from `{' ', 'X'}` only, the
legality test of `search.py` (`is_valid_move`, destination not `"X"`) agrees
with the one of `board.py` (`legal_moves`, destination equal to `" "`), for
each of the four directions. -/
theorem is_valid_move_iff_legal (b : Board) (pos : Pos) (d : String)
    (hWF : WFboard b)
    (hcells : ∀ row ∈ b, ∀ ch ∈ row, ch = ' ' ∨ ch = 'X')
    (hd : d ∈ MOVES) :
    (is_valid_move b pos d = true ↔ d ∈ legal_moves b pos) := by
  have hdirs : d ∈ DIRS := hd
  simp only [is_valid_move, legal_moves, List.mem_filter, Bool.and_eq_true,
    Bool.not_eq_true', decide_eq_false_iff_not, decide_eq_true_eq]
  constructor
  · rintro ⟨hinb, hX⟩
    refine ⟨hdirs, hinb, ?_⟩
    obtain ⟨row, hrow, hmem⟩ := cellAt_mem hWF hinb
    rcases hcells row hrow _ hmem with h | h
    · exact h
    · exact absurd h hX
  · rintro ⟨-, hinb, hcell⟩
    exact ⟨hinb, by simp [hcell]⟩

/-! ### The move selector: argmax fold and `choose_move` -/

theorem pyMaxFold_split (l : List (String × ℚ)) (x : String × ℚ) :
    ∃ pre suf, x :: l = pre ++ pyMaxFold x l :: suf ∧
      (∀ y ∈ pre, y.2 < (pyMaxFold x l).2) ∧
      (∀ y ∈ x :: l, y.2 ≤ (pyMaxFold x l).2) := by
  induction l generalizing x with
  | nil =>
    refine ⟨[], [], by simp [pyMaxFold], by simp, ?_⟩
    intro y hy
    rw [List.mem_singleton.mp hy]
    simp [pyMaxFold]
  | cons y ys ih =>
    have hfold : pyMaxFold x (y :: ys)
        = pyMaxFold (if y.2 > x.2 then y else x) ys := by
      rw [pyMaxFold, pyMaxFold, List.foldl_cons]
    by_cases hxy : y.2 > x.2
    · rw [hfold, if_pos hxy]
      obtain ⟨pre, suf, hsplit, hpre, hmax⟩ := ih y
      refine ⟨x :: pre, suf, ?_, ?_, ?_⟩
      · rw [List.cons_append, ← hsplit]
      · intro z hz
        rcases List.mem_cons.mp hz with rfl | hz
        · exact lt_of_lt_of_le hxy (hmax y (by simp))
        · exact hpre z hz
      · intro z hz
        rcases List.mem_cons.mp hz with rfl | hz
        · exact le_of_lt (lt_of_lt_of_le hxy (hmax y (by simp)))
        · exact hmax z hz
    · rw [hfold, if_neg hxy]
      obtain ⟨pre, suf, hsplit, hpre, hmax⟩ := ih x
      have hyx : y.2 ≤ x.2 := le_of_not_lt hxy
      cases pre with
      | nil =>
        simp only [List.nil_append] at hsplit
        have hx : x = pyMaxFold x ys := List.head_eq_of_cons_eq hsplit
        refine ⟨[], y :: ys, ?_, by simp, ?_⟩
        · simp [← hx]
        · intro z hz
          rcases List.mem_cons.mp hz with rfl | hz
          · exact hmax z (by simp)
          rcases List.mem_cons.mp hz with rfl | hz
          · exact le_trans hyx (hmax x (by simp))
          · exact hmax z (by simp [hz])
      | cons p pre' =>
        rw [List.cons_append] at hsplit
        have hp : x = p := List.head_eq_of_cons_eq hsplit
        subst hp
        have hys : ys = pre' ++ pyMaxFold x ys :: suf :=
          List.tail_eq_of_cons_eq hsplit
        refine ⟨x :: y :: pre', suf, ?_, ?_, ?_⟩
        · rw [List.cons_append, List.cons_append, ← hys]
        · intro z hz
          rcases List.mem_cons.mp hz with rfl | hz
          · exact hpre z (by simp)
          rcases List.mem_cons.mp hz with rfl | hz
          · exact lt_of_le_of_lt hyx (hpre x (by simp))
          · exact hpre z (by simp [hz])
        · intro z hz
          rcases List.mem_cons.mp hz with rfl | hz
          · exact hmax z (by simp)
          rcases List.mem_cons.mp hz with rfl | hz
          · exact le_trans hyx (hmax x (by simp))
          · exact hmax z (by simp [hz])

theorem mapM_scores {s : PyState} {opp : Pos} (h : s.opponent = some opp)
    (ms : List String) :
    ms.mapM (fun m' => (heuristic_score s m').map (fun r => (m', r)))
      = Except.ok (ms.map (fun m' => (m', hsCore s.board s.you opp
          (s.opponent_last_direction.getD "UP") m'))) := by
  induction ms with
  | nil => rfl
  | cons m ms ih =>
    rw [List.mapM_cons, heuristic_score_some h, ih]
    rfl

/-- C3: on a state with at least one valid direction (and a well-formed
opponent entry so that scoring succeeds), `choose_move` is deterministic —
independent of the randomness source and a function of the state — and
returns the valid direction of maximal heuristic score; on ties the earliest
direction in the fixed priority order UP, DOWN, LEFT, RIGHT wins (every
strictly earlier valid direction scores strictly lower). -/
theorem choose_move_spec (s : PyState) (opp : Pos) (rng rng' : Nat)
    (hopp : s.opponent = some opp) (hWF : WFboard s.board)
    (hvalid : MOVES.filter (fun m => is_valid_move s.board s.you m) ≠ []) :
    choose_move s rng = choose_move s rng' ∧
    ∃ d pre suf, choose_move s rng = Except.ok d ∧
      MOVES.filter (fun m => is_valid_move s.board s.you m)
        = pre ++ d :: suf ∧
      (∀ m ∈ MOVES.filter (fun m => is_valid_move s.board s.you m),
        hsCore s.board s.you opp (s.opponent_last_direction.getD "UP") m ≤
          hsCore s.board s.you opp (s.opponent_last_direction.getD "UP") d) ∧
      (∀ m ∈ pre,
        hsCore s.board s.you opp (s.opponent_last_direction.getD "UP") m <
          hsCore s.board s.you opp (s.opponent_last_direction.getD "UP") d) := by
  set core := fun m' => hsCore s.board s.you opp
    (s.opponent_last_direction.getD "UP") m' with hcore
  set f := fun m' => (m', core m') with hf
  match hvm : MOVES.filter (fun m => is_valid_move s.board s.you m) with
  | [] => exact absurd hvm hvalid
  | m :: ms =>
    have hcm : ∀ r : Nat, choose_move s r
        = Except.ok (pyMaxFold (f m) (ms.map f)).1 := by
      intro r
      rw [choose_move, hvm]
      simp only [mapM_scores hopp]
      simp only [heuristic_score_some hopp]
      rfl
    refine ⟨by rw [hcm rng, hcm rng'], ?_⟩
    obtain ⟨pre, suf, hsplit, hpre, hmax⟩ := pyMaxFold_split (ms.map f) (f m)
    set r := pyMaxFold (f m) (ms.map f) with hr
    have hmemr : r ∈ (m :: ms).map f := by
      have : r ∈ f m :: ms.map f := hsplit ▸ List.mem_append_right pre (by simp)
      simpa using this
    obtain ⟨m', hm', hfm⟩ := List.mem_map.mp hmemr
    have hrfst : r = f r.1 := by rw [← hfm]
    have hmapsplit : (m :: ms).map f = pre ++ r :: suf := by
      simpa using hsplit
    have hdecomp : m :: ms = pre.map Prod.fst ++ r.1 :: suf.map Prod.fst := by
      have := congrArg (List.map Prod.fst) hmapsplit
      simpa [List.map_map, Function.comp_def] using this
    refine ⟨r.1, pre.map Prod.fst, suf.map Prod.fst, hcm rng, hdecomp, ?_, ?_⟩
    · intro m₀ hm₀
      have hfm₀ : f m₀ ∈ f m :: ms.map f := by
        have : f m₀ ∈ (m :: ms).map f := List.mem_map_of_mem f hm₀
        simpa using this
      have := hmax (f m₀) hfm₀
      calc core m₀ = (f m₀).2 := rfl
        _ ≤ r.2 := this
        _ = core r.1 := by rw [hrfst]
    · intro m₀ hm₀
      obtain ⟨y, hy, hyfst⟩ := List.mem_map.mp hm₀
      have hyv : y ∈ (m :: ms).map f := by
        have : y ∈ f m :: ms.map f := hsplit ▸
          List.mem_append_left _ hy
        simpa using this
      obtain ⟨my, hmy, hfmy⟩ := List.mem_map.mp hyv
      have hy2 : y.2 = core m₀ := by
        rw [← hfmy] at hyfst ⊢
        simp only [hf] at hyfst ⊢
        rw [hyfst]
      calc core m₀ = y.2 := hy2.symm
        _ < r.2 := hpre y hy
        _ = core r.1 := by rw [hrfst]

/-- C2 (amended): an exception raised while scoring propagates out of
`choose_move` unhandled; the harness loop in `agent.py` catches it and
substitutes the fixed default direction `"UP"`. -/
theorem choose_move_error_to_default (s : PyState) (rng : Nat) (e : PyErr)
    (h : choose_move s rng = Except.error e) : agent_decide s rng = "UP" := by
  rw [agent_decide, h]
  rfl

/-- The state produced by the `case_closed_game.py` harness: a board using
`"."` for empty cells, a `"you"` position, and no `"opponent"` key. -/
def stBad : PyState :=
  ⟨List.replicate 18 (List.replicate 20 '.'), (1, 1), none, none⟩

/-- C2 counterexample: on a harness-style state with valid moves available,
scoring the first candidate raises `KeyError` (missing `"opponent"`), and
`choose_move` propagates the error to its caller instead of recovering. -/
theorem choose_move_propagates_error :
    choose_move stBad 0 = Except.error PyErr.keyError := rfl

/-- C2 witness for the amended claim at the concrete harness-style state. -/
theorem choose_move_error_to_default_witness : agent_decide stBad 0 = "UP" :=
  choose_move_error_to_default stBad 0 PyErr.keyError rfl

/-! ### Frame property of `heuristic_score` -/

theorem heuristic_score_heap_spec (h : Heap) (boardRef : Nat) (you : Pos)
    (oppO : Option Pos) (oppDirO : Option String) (move : String)
    (hlt : boardRef < h.next) :
    (heuristic_score_heap h boardRef you oppO oppDirO move).1
      = heuristic_score ⟨hread h boardRef, you, oppO, oppDirO⟩ move ∧
    hread (heuristic_score_heap h boardRef you oppO oppDirO move).2 boardRef
      = hread h boardRef ∧
    h.next ≤ (heuristic_score_heap h boardRef you oppO oppDirO move).2.next := by
  cases oppO with
  | none => exact ⟨rfl, rfl, le_refl _⟩
  | some opp =>
    have hne : boardRef ≠ h.next := Nat.ne_of_lt hlt
    simp only [heuristic_score_heap, heuristic_score, hsCore, markedBoard,
      halloc, hread, hwrite, hne, if_true, if_false, if_pos rfl, if_neg hne]
    split_ifs <;> simp_all [hread]

/-- C7: `heuristic_score` leaves the caller's board unchanged (the source
deep-copies the board and mutates only the private copy), its result agrees
with the pure scoring function of the caller-visible state, and a second
call on the post-call state returns the same result. -/
theorem heuristic_score_frame (h : Heap) (boardRef : Nat) (you : Pos)
    (oppO : Option Pos) (oppDirO : Option String) (move : String)
    (hlt : boardRef < h.next) :
    hread (heuristic_score_heap h boardRef you oppO oppDirO move).2 boardRef
      = hread h boardRef ∧
    (heuristic_score_heap h boardRef you oppO oppDirO move).1
      = heuristic_score ⟨hread h boardRef, you, oppO, oppDirO⟩ move ∧
    (heuristic_score_heap
        (heuristic_score_heap h boardRef you oppO oppDirO move).2
        boardRef you oppO oppDirO move).1
      = (heuristic_score_heap h boardRef you oppO oppDirO move).1 := by
  obtain ⟨hagree, hframe, hnext⟩ :=
    heuristic_score_heap_spec h boardRef you oppO oppDirO move hlt
  have hlt2 : boardRef
      < (heuristic_score_heap h boardRef you oppO oppDirO move).2.next :=
    lt_of_lt_of_le hlt hnext
  obtain ⟨hagree2, -, -⟩ :=
    heuristic_score_heap_spec _ boardRef you oppO oppDirO move hlt2
  exact ⟨hframe, hagree, by rw [hagree2, hframe, hagree]⟩

/-! ### Concrete fixtures and witnesses -/

/-- An all-wall 18 × 20 board. -/
def wallBoard : Board := List.replicate 18 (List.replicate 20 'X')

/-- An all-open 18 × 20 board. -/
def openBoard : Board := List.replicate 18 (List.replicate 20 ' ')

/-- All walls except a single OPEN cell at `(1, 1)`. -/
def isoBoard : Board :=
  (List.replicate 18 (List.replicate 20 'X')).set 1
    ((List.replicate 20 'X').set 1 ' ')

/-- All walls except a two-cell OPEN corridor at `(1, 1)`–`(1, 2)`. -/
def corridorBoard : Board :=
  (List.replicate 18 (List.replicate 20 'X')).set 1
    (((List.replicate 20 'X').set 1 ' ').set 2 ' ')

/-- C1 witness state: agent in the corner of a wall board, `"UP"` leaves the
arena. -/
def stW1 : PyState := ⟨wallBoard, (0, 0), some (5, 5), none⟩

theorem heuristic_score_fatal_sentinel_witness :
    WFboard stW1.board ∧ stW1.opponent = some (5, 5) ∧
    inb stW1.you.1 stW1.you.2 = true ∧
    inb (5 : Int) (5 : Int) = true ∧ "UP" ∈ MOVES ∧
    (((inb (moveDest stW1.you "UP").1 (moveDest stW1.you "UP").2 = false ∨
        cellAt stW1.board (moveDest stW1.you "UP").1
          (moveDest stW1.you "UP").2 = 'X') →
      heuristic_score stW1 "UP" = Except.ok W_FATAL) ∧
    (∀ q : ℚ, heuristic_score stW1 "UP" = Except.ok q → q ≠ W_FATAL →
      W_FATAL < q)) :=
  ⟨by decide, rfl, by decide, by decide, by decide,
    heuristic_score_fatal_sentinel stW1 (5, 5) "UP" (by decide) rfl
      (by decide) (by decide) (by decide)⟩

/-- C3 witness state: open board, all four moves valid. -/
def stW3 : PyState := ⟨openBoard, (3, 3), some (10, 10), some "DOWN"⟩

theorem choose_move_spec_witness :
    stW3.opponent = some (10, 10) ∧ WFboard stW3.board ∧
    MOVES.filter (fun m => is_valid_move stW3.board stW3.you m) ≠ [] ∧
    (choose_move stW3 0 = choose_move stW3 1 ∧
    ∃ d pre suf, choose_move stW3 0 = Except.ok d ∧
      MOVES.filter (fun m => is_valid_move stW3.board stW3.you m)
        = pre ++ d :: suf ∧
      (∀ m ∈ MOVES.filter (fun m => is_valid_move stW3.board stW3.you m),
        hsCore stW3.board stW3.you (10, 10)
            (stW3.opponent_last_direction.getD "UP") m ≤
          hsCore stW3.board stW3.you (10, 10)
            (stW3.opponent_last_direction.getD "UP") d) ∧
      (∀ m ∈ pre,
        hsCore stW3.board stW3.you (10, 10)
            (stW3.opponent_last_direction.getD "UP") m <
          hsCore stW3.board stW3.you (10, 10)
            (stW3.opponent_last_direction.getD "UP") d)) :=
  ⟨rfl, by decide, by decide,
    choose_move_spec stW3 (10, 10) 0 1 rfl (by decide) (by decide)⟩

theorem territorial_threat_spec_witness :
    WFboard wallBoard ∧ inb (1 : Int) (1 : Int) = true ∧
    inb (2 : Int) (2 : Int) = true ∧
    ((0 ≤ territorial_threat wallBoard (1, 1) (2, 2) 6 ∧
      territorial_threat wallBoard (1, 1) (2, 2) 6 ≤ 1) ∧
    (∀ p : Pos, ttContested (bfs wallBoard 6 (1, 1) p)
        (bfs wallBoard 6 (2, 2) p) = true ↔
      ∃ dy dopp, bfs wallBoard 6 (1, 1) p = some dy ∧
        bfs wallBoard 6 (2, 2) p = some dopp ∧ dopp ≤ dy) ∧
    ((∀ p : Pos, (bfs wallBoard 6 (1, 1) p).isSome = true →
        bfs wallBoard 6 (2, 2) p = none) →
      territorial_threat wallBoard (1, 1) (2, 2) 6 = 0)) :=
  ⟨by decide, by decide, by decide,
    territorial_threat_spec wallBoard (1, 1) (2, 2) 6 (by decide)
      (by decide) (by decide)⟩

theorem flood_fill_area_spec_witness :
    WFboard isoBoard ∧
    (((inb (1 : Int) (1 : Int) = false ∨ cellAt isoBoard 1 1 ≠ ' ') →
      flood_fill_area isoBoard (1, 1) = 0) ∧
    (openCell isoBoard (1, 1) →
      flood_fill_area isoBoard (1, 1)
        = Set.ncard {q | Reaches isoBoard (1, 1) q})) :=
  ⟨by decide, flood_fill_area_spec isoBoard (1, 1) (by decide)⟩

theorem legal_moves_spec_witness :
    "UP" ∈ legal_moves openBoard (3, 3) ∧
    (inb (moveDest ((3, 3) : Pos) "UP").1 (moveDest ((3, 3) : Pos) "UP").2 = true ∧
    cellAt openBoard (moveDest ((3, 3) : Pos) "UP").1
      (moveDest ((3, 3) : Pos) "UP").2 = ' ' ∧
    cellAt openBoard (moveDest ((3, 3) : Pos) "UP").1
      (moveDest ((3, 3) : Pos) "UP").2 ≠ 'X') :=
  ⟨by decide, legal_moves_spec openBoard (3, 3) "UP" (by decide)⟩

/-- C9 witness state: two-cell corridor; `"RIGHT"` is non-fatal. -/
def stW9 : PyState := ⟨corridorBoard, (1, 1), some (5, 5), none⟩

theorem heuristic_score_no_headon_witness :
    WFboard stW9.board ∧ stW9.opponent = some (5, 5) ∧
    inb (5 : Int) (5 : Int) = true ∧
    heuristic_score stW9 "RIGHT"
      = Except.ok (hsCore stW9.board stW9.you (5, 5) "UP" "RIGHT") ∧
    hsCore stW9.board stW9.you (5, 5) "UP" "RIGHT" ≠ W_FATAL ∧
    ((simulate_move stW9.board stW9.you "RIGHT").1 ≠ (5, 5) ∧
    headonFlag (simulate_move stW9.board stW9.you "RIGHT").1 (5, 5) = false ∧
    headonTerm (simulate_move stW9.board stW9.you "RIGHT").1 (5, 5) = 0) := by
  have hq : heuristic_score stW9 "RIGHT"
      = Except.ok (hsCore stW9.board stW9.you (5, 5) "UP" "RIGHT") :=
    heuristic_score_some rfl "RIGHT"
  have h1 : (simulate_move stW9.board stW9.you "RIGHT").2 = false := by decide
  have h2 : (!(inb (simulate_move stW9.board stW9.you "RIGHT").1.1
        (simulate_move stW9.board stW9.you "RIGHT").1.2) ||
      decide (cellAt (markedBoard stW9.board stW9.you (5, 5))
        (simulate_move stW9.board stW9.you "RIGHT").1.1
        (simulate_move stW9.board stW9.you "RIGHT").1.2 = 'X')) = false := by
    decide
  have hcore : hsCore stW9.board stW9.you (5, 5) "UP" "RIGHT"
      = hsSafeScore (markedBoard stW9.board stW9.you (5, 5))
        (simulate_move stW9.board stW9.you "RIGHT").1 (5, 5) "UP" := by
    rw [hsCore]
    simp only [h1, h2, Bool.false_eq_true, if_false]
  have hne : hsCore stW9.board stW9.you (5, 5) "UP" "RIGHT" ≠ W_FATAL := by
    rw [hcore]
    exact ne_of_gt (hsSafeScore_gt_fatal _ _ _ _)
  exact ⟨by decide, rfl, by decide, hq, hne,
    heuristic_score_no_headon stW9 (5, 5) "RIGHT" _ (by decide) rfl
      (by decide) hq hne⟩

theorem is_valid_move_iff_legal_witness :
    WFboard corridorBoard ∧
    (∀ row ∈ corridorBoard, ∀ ch ∈ row, ch = ' ' ∨ ch = 'X') ∧
    "RIGHT" ∈ MOVES ∧
    (is_valid_move corridorBoard ((1, 1) : Pos) "RIGHT" = true ↔
      "RIGHT" ∈ legal_moves corridorBoard ((1, 1) : Pos)) :=
  ⟨by decide, by decide, by decide,
    is_valid_move_iff_legal corridorBoard (1, 1) "RIGHT" (by decide)
      (by decide) (by decide)⟩

/-- C7 witness heap: one allocated board at reference 0. -/
def heapW : Heap := ⟨fun _ => openBoard, 1⟩

theorem heuristic_score_frame_witness :
    0 < heapW.next ∧
    (hread (heuristic_score_heap heapW 0 (2, 2) (some (5, 5)) none "UP").2 0
      = hread heapW 0 ∧
    (heuristic_score_heap heapW 0 (2, 2) (some (5, 5)) none "UP").1
      = heuristic_score ⟨hread heapW 0, (2, 2), some (5, 5), none⟩ "UP" ∧
    (heuristic_score_heap
        (heuristic_score_heap heapW 0 (2, 2) (some (5, 5)) none "UP").2
        0 (2, 2) (some (5, 5)) none "UP").1
      = (heuristic_score_heap heapW 0 (2, 2) (some (5, 5)) none "UP").1) :=
  ⟨by decide, heuristic_score_frame heapW 0 (2, 2) (some (5, 5)) none "UP"
    (by decide)⟩

end CaseClosed
